import Mathlib

/-!
Shallow embedding of the incremental graph engine of the
claude-vs-gemini-comparison repository.  The authoritative source is the
SynthesisMap component (src/unnamed/part_000, second document): its data
model, visibility traversal, layout engine, history manager and the three
mutation operations (full regenerate, dive/expand, local refine).  The
React variant in src/frontend-react/src/App.jsx is embedded where a claim
cites it (its dive merge and history push).

JavaScript numbers used for coordinates are modelled as rationals; the
call to Math.random() inside calculateLayout is modelled as reading
successive values from an externally supplied sequence of rationals.
Recursions of the source that have no structural termination argument
(the visibility traversal, the descendant stack loop, the breadth-first
level assignment and the recursive vertical placement) are embedded with
an explicit fuel parameter; running out of fuel yields none.
-/

namespace SynthMap

/-- The per-node payload stored under `data` in the SynthesisMap state:
label, type, optional summary and optional reasoning. -/
structure NodeData where
  label : String
  type : String
  summary : Option String
  reasoning : Option String
deriving Repr, DecidableEq

/-- A graph node as stored in the `nodes` React state: an id plus data. -/
structure Node where
  id : String
  data : NodeData
deriving Repr, DecidableEq

/-- A graph edge: source id, target id and the optional relationship
label (App.jsx attaches relationship "expands" to dive edges). -/
structure Edge where
  source : String
  target : String
  relationship : Option String := none
deriving Repr, DecidableEq

/-- A raw node of an Oracle fragment, before the component maps it into
its own Node shape (`parsedGraph.nodes` in the source). -/
structure RawNode where
  id : String
  label : String
  type : String
  summary : Option String
  reasoning : Option String
deriving Repr, DecidableEq

/-- A parsed Oracle fragment `{ nodes: [...], edges: [...] }`. -/
structure Fragment where
  nodes : List RawNode
  edges : List Edge
deriving Repr, DecidableEq

/-- generateMap's node conversion: reasoning defaults to
"Direct connection found in source text." when absent. -/
def mkNodeGen (n : RawNode) : Node :=
  ⟨n.id, ⟨n.label, n.type, n.summary,
    some (n.reasoning.getD "Direct connection found in source text.")⟩⟩

/-- handleNodeAction's node conversion: reasoning is passed through
unchanged (possibly absent). -/
def mkNodeAct (n : RawNode) : Node :=
  ⟨n.id, ⟨n.label, n.type, n.summary, n.reasoning⟩⟩

/-- JS `Set.add` on an insertion-ordered set modelled as a list:
append the element unless already present. -/
def addSet (l : List String) (x : String) : List String :=
  if l.contains x then l else l ++ [x]

/-- The ids of a node list. -/
def nodeIds (ns : List Node) : List String :=
  ns.map (fun n => n.id)

/-- The committed-graph invariant of the spec: every edge's source and
target are ids of committed nodes. -/
def edgesClosed (ns : List Node) (es : List Edge) : Prop :=
  ∀ e ∈ es, e.source ∈ nodeIds ns ∧ e.target ∈ nodeIds ns

instance (ns : List Node) (es : List Edge) : Decidable (edgesClosed ns es) := by
  unfold edgesClosed; infer_instance

/-- A history snapshot: the (nodes, edges) pair pushed by pushHistory. -/
abbrev Snap := List Node × List Edge

/-- The engine-relevant React state of SynthesisMap: the live graph,
the expansion set, and the undo history with its index (-1 when empty). -/
structure AppState where
  nodes : List Node
  edges : List Edge
  expandedNodes : List String
  history : List Snap
  historyIndex : Int
deriving Repr, DecidableEq

/-- The initial state: empty graph, empty expansion set, empty history,
historyIndex -1. -/
def initState : AppState := ⟨[], [], [], [], -1⟩

/-- pushHistory: slice the history to index+1 (cutting off the undone
future), append the new snapshot, and point the index at the new last
position (newHistory.length - 1). -/
def pushHistory (h : List Snap) (idx : Int) (snap : Snap) :
    List Snap × Int :=
  let nh := h.take (idx + 1).toNat ++ [snap]
  (nh, (nh.length : Int) - 1)

/-- The common commit sequence of every successful mutation:
setNodes, setEdges, pushHistory. -/
def commitGraph (s : AppState) (ns : List Node) (es : List Edge) : AppState :=
  let p := pushHistory s.history s.historyIndex (ns, es)
  { s with nodes := ns, edges := es, history := p.1, historyIndex := p.2 }

/-- handleUndo: when historyIndex > 0, load the snapshot at index-1 and
decrement the index; otherwise do nothing. -/
def handleUndo (s : AppState) : AppState :=
  if 0 < s.historyIndex then
    let prevIndex := s.historyIndex - 1
    let prev := s.history.getD prevIndex.toNat ([], [])
    { s with nodes := prev.1, edges := prev.2, historyIndex := prevIndex }
  else s

/-- App.jsx's history push inside handleGenerate / handleNodeAction:
slice to historyIndex+1, append, increment the index. -/
def pushHistoryJsx (h : List Snap) (idx : Int) (snap : Snap) :
    List Snap × Int :=
  (h.take (idx + 1).toNat ++ [snap], idx + 1)

/-- generateMap's success path: commit the fragment wholesale as the new
graph, push it, and reset the expansion set to the root node (the first
node of type "root", else the first node).  A failed call (non-ok
response, unparsable payload, missing fields making the mapping throw)
reaches the catch block before any state write: the state is returned
unchanged. -/
def generateMapStep (s : AppState) (result : Option Fragment) : AppState :=
  match result with
  | none => s
  | some frag =>
    let rawNodes := frag.nodes.map mkNodeGen
    let s1 := commitGraph s rawNodes frag.edges
    let rootNode := match rawNodes.find? (fun n => n.data.type == "root") with
      | some r => some r
      | none => rawNodes.head?
    let initialExpanded := match rootNode with
      | some r => [r.id]
      | none => []
    { s1 with expandedNodes := initialExpanded }

/-- The dive (expand) merge and commit of SynthesisMap's
handleNodeAction: append all returned nodes and all returned edges to
the current graph, push, and add the selected id to the expansion set.
A failed call reaches the catch block before any state write. -/
def diveStep (s : AppState) (sel : Node) (result : Option Fragment) :
    AppState :=
  match result with
  | none => s
  | some frag =>
    let newNodes := frag.nodes.map mkNodeAct
    let s1 := commitGraph s (s.nodes ++ newNodes) (s.edges ++ frag.edges)
    { s1 with expandedNodes := addSet s.expandedNodes sel.id }

/-- The getDescendants stack loop of handleNodeAction's refine branch:
pop an id, collect all targets of its outgoing edges into the descendant
set, push them all back onto the stack, and repeat until the stack is
empty.  There is no visited guard: already-collected ids are pushed
again.  Fuel counts loop iterations. -/
def getDescLoop (es : List Edge) :
    Nat → List String → List String → Option (List String)
  | _, desc, [] => some desc
  | 0, _, _ :: _ => none
  | fuel + 1, desc, current :: rest =>
    let children := (es.filter (fun e => e.source == current)).map
      (fun e => e.target)
    getDescLoop es fuel (children.foldl addSet desc)
      (children.reverse ++ rest)

/-- getDescendants(rootId, allEdges): run the stack loop from the
selected id with an empty descendant set. -/
def getDescendantsF (es : List Edge) (rootId : String) (fuel : Nat) :
    Option (List String) :=
  getDescLoop es fuel [] [rootId]

/-- The node-removal phase of a local refine: drop every node whose id
is in the computed descendant set. -/
def cleanNodes (ns : List Node) (desc : List String) : List Node :=
  ns.filter (fun n => !(desc.contains n.id))

/-- The edge-removal phase of a local refine: drop every edge whose
source is the selected id or whose target is in the descendant set. -/
def cleanEdges (es : List Edge) (selId : String) (desc : List String) :
    List Edge :=
  es.filter (fun e => e.source != selId && !(desc.contains e.target))

/-- JS `new Map(newNodes.map(n => [n.id, n])).get(id)`: the last binding
of a duplicated key wins. -/
def lookupLastNode (ns : List Node) (id : String) : Option Node :=
  (ns.filter (fun n => n.id == id)).getLast?

/-- The local-refine merge of handleNodeAction: remove the descendant
subtree, replace surviving same-id nodes by their fragment versions,
append genuinely new fragment nodes, and append all fragment edges. -/
def refineMerge (ns : List Node) (es : List Edge) (selId : String)
    (desc : List String) (frag : Fragment) : List Node × List Edge :=
  let newNodes := frag.nodes.map mkNodeAct
  let cns := cleanNodes ns desc
  let ces := cleanEdges es selId desc
  let replaced := cns.map (fun n =>
    match lookupLastNode newNodes n.id with
    | some u => u
    | none => n)
  let existingIds := nodeIds replaced
  let trulyNew := newNodes.filter (fun n => !(existingIds.contains n.id))
  (replaced ++ trulyNew, ces ++ frag.edges)

/-- The refine branch of handleNodeAction: compute the descendants of
the selected node over the full current edge list, perform the
refineMerge, commit and push, and add the selected id to the expansion
set.  none models the divergence of the unguarded descendant loop (fuel
exhaustion); a failed Oracle call returns the state unchanged. -/
def refineStep (s : AppState) (sel : Node) (result : Option Fragment)
    (fuel : Nat) : Option AppState :=
  match result with
  | none => some s
  | some frag =>
    match getDescendantsF s.edges sel.id fuel with
    | none => none
    | some desc =>
      let m := refineMerge s.nodes s.edges sel.id desc frag
      let s1 := commitGraph s m.1 m.2
      some { s1 with expandedNodes := addSet s.expandedNodes sel.id }

/-- App.jsx's per-fragment-node dive-merge step: skip a node whose id is
already present, otherwise append it together with an edge from the
selected node carrying relationship "expands". -/
def jsxDiveStep (selId : String) (q : List Node × List Edge) (n : Node) :
    List Node × List Edge :=
  if q.1.any (fun m => m.id == n.id) then q
  else (q.1 ++ [n], q.2 ++ [⟨selId, n.id, some "expands"⟩])

/-- App.jsx's dive merge: fold the fragment nodes over the current
graph; fragment edges themselves are ignored. -/
def diveMergeJsx (ns : List Node) (es : List Edge) (selId : String)
    (fragNodes : List Node) : List Node × List Edge :=
  fragNodes.foldl (jsxDiveStep selId) (ns, es)

/-! The visibility traversal of SynthesisMap.  The recursive `traverse`
closure adds the id to the shared visible set and, when the id is in the
expansion set, recurses into the targets of its outgoing edges.  There
is no visited guard.  Fuel bounds the recursion depth. -/

mutual

/-- The body of `traverse(nodeId)`: add the id to the accumulated
visible set, and when the id is expanded recurse into its children. -/
def traverseF (es : List Edge) (expanded : List String) :
    Nat → List String → String → Option (List String)
  | 0, _, _ => none
  | fuel + 1, acc, nodeId =>
    let acc1 := addSet acc nodeId
    if expanded.contains nodeId then
      traverseListF es expanded fuel acc1
        ((es.filter (fun e => e.source == nodeId)).map (fun e => e.target))
    else some acc1
termination_by fuel _ _ => (fuel, 0)

/-- `children.forEach(traverse)`: traverse a list of ids left to right,
threading the shared visible set. -/
def traverseListF (es : List Edge) (expanded : List String) :
    Nat → List String → List String → Option (List String)
  | _, acc, [] => some acc
  | fuel, acc, c :: cs =>
    match traverseF es expanded fuel acc c with
    | none => none
    | some acc2 => traverseListF es expanded fuel acc2 cs
termination_by fuel _ l => (fuel, l.length + 1)

end

/-- The start ids of the visibility traversal: the ids of the nodes
with no incoming edge, falling back to the first node when every node
has one. -/
def startIds (nodes : List Node) (es : List Edge) : List String :=
  match nodes with
  | [] => []
  | n0 :: _ =>
    let rootNodes := nodes.filter (fun n =>
      !(es.any (fun e => e.target == n.id)))
    (if rootNodes.isEmpty then [n0] else rootNodes).map (fun n => n.id)

/-- The visible-subgraph computation of SynthesisMap (before layout):
every start node is traversed into the shared visible-id set, and a
node/edge survives iff its id / both its endpoint ids are in that set. -/
def visibleSetsF (fuel : Nat) (nodes : List Node) (es : List Edge)
    (expanded : List String) : Option (List Node × List Edge) :=
  match nodes with
  | [] => some ([], [])
  | _ :: _ =>
    match traverseListF es expanded fuel [] (startIds nodes es) with
    | none => none
    | some vIds =>
      some (nodes.filter (fun n => vIds.contains n.id),
        es.filter (fun e =>
          vIds.contains e.source && vIds.contains e.target))

/-! The layout engine (calculateLayout). -/

/-- A laid-out node: the node plus its x and y coordinates. -/
structure LNode where
  node : Node
  x : ℚ
  y : ℚ
deriving Repr, DecidableEq

/-- The value returned by calculateLayout. -/
structure Layout where
  nodes : List LNode
  edges : List Edge
  width : ℚ
  height : ℚ
deriving Repr, DecidableEq

/-- JS object assignment `nodeY[id] = v` on an assoc list: overwrite the
existing binding, else append. -/
def updY (l : List (String × ℚ)) (id : String) (v : ℚ) :
    List (String × ℚ) :=
  if l.any (fun p => p.1 == id) then
    l.map (fun p => if p.1 == id then (id, v) else p)
  else l ++ [(id, v)]

/-- The per-child step of the breadth-first level assignment: a child
not yet visited is marked visited and enqueued at level+1. -/
def bfsStep (level : Nat) (p : List String × List (String × Nat))
    (c : String) : List String × List (String × Nat) :=
  if p.1.contains c then p
  else (p.1 ++ [c], p.2 ++ [(c, level + 1)])

/-- One iteration of calculateLayout's breadth-first level assignment:
dequeue (id, level), record the assignment, and enqueue every
not-yet-visited child at level+1, marking it visited.  Returns the
assignment list and the visited set; fuel counts iterations. -/
def bfsLoop (adj : String → List String) :
    Nat → List (String × Nat) → List String → List (String × Nat) →
    Option (List (String × Nat) × List String)
  | _, [], visited, assigned => some (assigned, visited)
  | 0, _ :: _, _, _ => none
  | fuel + 1, (id, level) :: rest, visited, assigned =>
    let st := (adj id).foldl (bfsStep level) (visited, [])
    bfsLoop adj fuel (rest ++ st.2) st.1 (assigned ++ [(id, level)])

mutual

/-- layoutNode(nodeId, startY): a node with no children occupies one
unit (NODE_HEIGHT + SIBLING_GAP = 90) and sits at startY + 30; a node
with children lays them out left to right and sits at the midpoint of
the first and last child's y. -/
def layoutNodeF (adj : String → List String) :
    Nat → List (String × ℚ) → String → ℚ →
    Option (List (String × ℚ) × ℚ)
  | 0, _, _, _ => none
  | fuel + 1, nodeY, nodeId, startY =>
    let children := adj nodeId
    if children.isEmpty then
      some (updY nodeY nodeId (startY + 30), 90)
    else
      match layoutChildrenF adj fuel nodeY children startY 0 with
      | none => none
      | some (ny, total) =>
        let firstY := (ny.lookup (children.headD "")).getD 0
        let lastY := (ny.lookup (children.getLastD "")).getD 0
        some (updY ny nodeId ((firstY + lastY) / 2), total)
termination_by fuel _ _ _ => (fuel, 0)

/-- The children loop of layoutNode: lay out each child at the running
vertical cursor, accumulating the total height. -/
def layoutChildrenF (adj : String → List String) :
    Nat → List (String × ℚ) → List String → ℚ → ℚ →
    Option (List (String × ℚ) × ℚ)
  | _, nodeY, [], _, total => some (nodeY, total)
  | fuel, nodeY, c :: cs, childStartY, total =>
    match layoutNodeF adj fuel nodeY c childStartY with
    | none => none
    | some (ny, h) =>
      layoutChildrenF adj fuel ny cs (childStartY + h) (total + h)
termination_by fuel _ l _ _ => (fuel, l.length + 1)

end

/-- The adjacency map calculateLayout builds: children of a visible node
id are the targets of the visible edges leaving it; ids outside the
visible node set have no entry (modelled as no children). -/
def layoutAdj (vnodes : List Node) (vedges : List Edge) :
    String → List String :=
  fun id =>
    if (nodeIds vnodes).contains id then
      (vedges.filter (fun e => e.source == id)).map (fun e => e.target)
    else []

/-- The root calculateLayout chooses: the first visible node with no
incoming visible edge, else the first visible node. -/
def layoutRootId (n0 : Node) (vnodes : List Node) (vedges : List Edge) :
    String :=
  match vnodes.find? (fun n => !(vedges.any (fun e => e.target == n.id))) with
  | some n => n.id
  | none => n0.id

/-- The post-traversal default pass of calculateLayout: every visible
node the breadth-first traversal did not visit is assigned level 1. -/
def levelsWithDefaults (assigned : List (String × Nat))
    (visited : List String) (vnodes : List Node) :
    List (String × Nat) :=
  assigned ++ (vnodes.filter (fun n => !(visited.contains n.id))).map
    (fun n => (n.id, 1))

/-- The final per-node mapping of calculateLayout: x from the level
(level * LEVEL_GAP + 50, missing level read as 0 by the JS `|| 0`), y
from the vertical placement; a node with no (or a zero, by JS
falsiness) y entry draws Math.random() * 500, modelled as consuming the
next value of the supplied sequence. -/
def placeStep (rand : Nat → ℚ) (nodeLevelsFull : List (String × Nat))
    (nodeY : List (String × ℚ)) (st : List LNode × Nat) (n : Node) :
    List LNode × Nat :=
  let lvl := (nodeLevelsFull.lookup n.id).getD 0
  let x : ℚ := lvl * 380 + 50
  match nodeY.lookup n.id with
  | some y =>
    if y == 0 then (st.1 ++ [⟨n, x, 500 * rand st.2⟩], st.2 + 1)
    else (st.1 ++ [⟨n, x, y⟩], st.2)
  | none => (st.1 ++ [⟨n, x, 500 * rand st.2⟩], st.2 + 1)

def placeNodes (rand : Nat → ℚ) (nodeLevelsFull : List (String × Nat))
    (nodeY : List (String × ℚ)) (vnodes : List Node) :
    List LNode × Nat :=
  vnodes.foldl (placeStep rand nodeLevelsFull nodeY) ([], 0)

/-- calculateLayout(visibleNodes, visibleEdges): empty input yields the
empty layout; otherwise assign levels breadth-first from the chosen
root (undiscovered visible nodes defaulting to level 1), place ys
recursively from the root, map every visible node to its coordinates,
and compute the bounding box. -/
def calculateLayoutF (rand : Nat → ℚ) (fuel : Nat) (vnodes : List Node)
    (vedges : List Edge) : Option Layout :=
  match vnodes with
  | [] => some ⟨[], [], 0, 0⟩
  | n0 :: _ =>
    let adj := layoutAdj vnodes vedges
    let rootId := layoutRootId n0 vnodes vedges
    match bfsLoop adj fuel [(rootId, 0)] [rootId] [] with
    | none => none
    | some (assigned, visited) =>
      let nodeLevelsFull := levelsWithDefaults assigned visited vnodes
      match layoutNodeF adj fuel [] rootId 0 with
      | none => none
      | some (nodeY, _) =>
        let layouted := (placeNodes rand nodeLevelsFull nodeY vnodes).1
        let maxLevel := (nodeLevelsFull.map (fun p => p.2)).foldl max 0
        some ⟨layouted, vedges, (maxLevel : ℚ) * 380 + 280 + 100,
          (nodeY.length : ℚ) * 90 + 100⟩

/-- The full visibleGraph pipeline: visibility resolution followed by
layout. -/
def visibleGraphF (rand : Nat → ℚ) (fuel : Nat) (nodes : List Node)
    (es : List Edge) (expanded : List String) : Option Layout :=
  match visibleSetsF fuel nodes es expanded with
  | none => none
  | some (vn, ve) => calculateLayoutF rand fuel vn ve

/-! Mutation sequences and undo iteration, for reasoning about the
history invariants. -/

/-- One user mutation of the session: a full regenerate (also global
refine), a dive, or a local refine, each carrying the Oracle fragment
its successful call produced. -/
inductive MutAct where
  | regen (frag : Fragment)
  | dive (sel : Node) (frag : Fragment)
  | refine (sel : Node) (frag : Fragment) (fuel : Nat)

/-- Apply one successful mutation; none only when the refine descendant
loop runs out of fuel. -/
def applyMut (s : AppState) : MutAct → Option AppState
  | .regen frag => some (generateMapStep s (some frag))
  | .dive sel frag => some (diveStep s sel (some frag))
  | .refine sel frag fuel => refineStep s sel (some frag) fuel

/-- Apply a list of mutations in order. -/
def applyMuts (s : AppState) : List MutAct → Option AppState
  | [] => some s
  | a :: rest =>
    match applyMut s a with
    | none => none
    | some s1 => applyMuts s1 rest

/-- Press undo n times. -/
def undoIter (s : AppState) : Nat → AppState
  | 0 => s
  | n + 1 => undoIter (handleUndo s) n

/-- Modelled from the spec: the structural validation of §7 that is
absent from the source.  Its edge clause: every fragment edge must
reference ids present in the existing graph or in the fragment itself
(field presence is already guaranteed by the parsed Fragment shape). -/
def fragmentStructValid (g : List Node) (frag : Fragment) : Prop :=
  ∀ e ∈ frag.edges,
    (e.source ∈ nodeIds g ∨ e.source ∈ frag.nodes.map (fun n => n.id)) ∧
    (e.target ∈ nodeIds g ∨ e.target ∈ frag.nodes.map (fun n => n.id))

instance (g : List Node) (frag : Fragment) :
    Decidable (fragmentStructValid g frag) := by
  unfold fragmentStructValid; infer_instance

/-! Concrete fixtures used by scenarios, counterexamples and
witnesses. -/

/-- Node A of the spec's A→B→C scenario graph. -/
def nA : Node := ⟨"A", ⟨"Alpha", "root", none, none⟩⟩

/-- Node B of the scenario graph. -/
def nB : Node := ⟨"B", ⟨"Beta", "category", none, none⟩⟩

/-- Node C of the scenario graph. -/
def nC : Node := ⟨"C", ⟨"Gamma", "leaf", none, none⟩⟩

/-- The edge A→B. -/
def eAB : Edge := ⟨"A", "B", none⟩

/-- The edge B→C. -/
def eBC : Edge := ⟨"B", "C", none⟩

/-- A two-node cyclic edge list: A→B and B→A. -/
def cycEdges : List Edge := [⟨"A", "B", none⟩, ⟨"B", "A", none⟩]

/-- A one-node committed state whose single snapshot is its graph. -/
def stA : AppState := ⟨[nA], [], ["A"], [([nA], [])], 0⟩

/-- A fragment whose only edge dangles: its target "Z" names no node of
the graph nor of the fragment. -/
def danglingFrag : Fragment := ⟨[], [⟨"A", "Z", none⟩]⟩

/-- A fragment that returns a node whose id "A" is already present. -/
def dupFrag : Fragment :=
  ⟨[⟨"A", "Alpha again", "leaf", none, none⟩], []⟩

/-- A one-node regenerate fragment. -/
def exFrag : Fragment := ⟨[⟨"A", "Alpha", "root", none, none⟩], []⟩

/-- The state after regenerating from the empty initial state. -/
def exS1 : AppState := generateMapStep initState (some exFrag)

/-- The state after a further dive. -/
def exFin : AppState := diveStep exS1 nA (some dupFrag)

/-- One edge step: some edge of the list goes from x to y. -/
def edgeStep (es : List Edge) (x y : String) : Prop :=
  ∃ e ∈ es, e.source = x ∧ e.target = y

/-- Reachability in at least one edge step. -/
inductive ReachPlus (es : List Edge) : String → String → Prop where
  | single {x y : String} : edgeStep es x y → ReachPlus es x y
  | head {x y z : String} :
      edgeStep es x y → ReachPlus es y z → ReachPlus es x z

/-- Reachability descending only through expanded nodes: z is reached
from x along edges whose every source on the way is in the expansion
set (x itself is always reached). -/
inductive ReachExp (es : List Edge) (expanded : List String) :
    String → String → Prop where
  | refl (x : String) : ReachExp es expanded x x
  | step {x y z : String} : x ∈ expanded → edgeStep es x y →
      ReachExp es expanded y z → ReachExp es expanded x z

/-- A well-formed dive fragment for the witness: one new node D plus the
edge A→D. -/
def goodFrag : Fragment :=
  ⟨[⟨"D", "Delta", "leaf", none, none⟩], [⟨"A", "D", none⟩]⟩

/-! Helper lemmas. -/

theorem mem_addSet {l : List String} {x y : String} :
    y ∈ addSet l x ↔ y ∈ l ∨ y = x := by
  unfold addSet
  split
  · rename_i hc
    constructor
    · exact fun h => Or.inl h
    · rintro (h | rfl)
      · exact h
      · exact List.elem_iff.mp hc
  · simp [List.mem_append]

theorem mem_foldl_addSet {cs : List String} :
    ∀ {d : List String} {y : String},
      y ∈ cs.foldl addSet d ↔ y ∈ d ∨ y ∈ cs := by
  induction cs with
  | nil => simp
  | cons c cs ih =>
    intro d y
    simp only [List.foldl_cons, ih, mem_addSet, List.mem_cons]
    tauto

theorem jsxFold_inv (selId : String) (ns : List Node) :
    ∀ (fns : List Node) (p : List Node × List Edge),
      (∀ n ∈ ns, n ∈ p.1) →
      (∀ n ∈ p.1, n ∈ ns ∨ ¬ n.id ∈ nodeIds ns) →
      (∀ n ∈ p.1, n ∈ (fns.foldl (jsxDiveStep selId) p).1) ∧
      (∀ e ∈ p.2, e ∈ (fns.foldl (jsxDiveStep selId) p).2) ∧
      (∀ n ∈ (fns.foldl (jsxDiveStep selId) p).1,
        n ∈ ns ∨ ¬ n.id ∈ nodeIds ns) := by
  intro fns
  induction fns with
  | nil => exact fun p _ hinv => ⟨fun n h => h, fun e h => h, hinv⟩
  | cons f fns ih =>
    intro p hns hinv
    simp only [List.foldl_cons]
    by_cases hc : p.1.any (fun m => m.id == f.id) = true
    · have hstep : jsxDiveStep selId p f = p := by
        unfold jsxDiveStep; simp [hc]
      rw [hstep]
      exact ih p hns hinv
    · have hstep : jsxDiveStep selId p f =
          (p.1 ++ [f], p.2 ++ [⟨selId, f.id, some "expands"⟩]) := by
        unfold jsxDiveStep; simp only [hc]; simp
      rw [hstep]
      have hfresh : ¬ f.id ∈ nodeIds ns := by
        intro hid
        apply hc
        rcases List.mem_map.mp hid with ⟨m, hm, hmid⟩
        exact List.any_eq_true.mpr ⟨m, hns m hm, by simp [hmid]⟩
      have h1 := ih (p.1 ++ [f], p.2 ++ [⟨selId, f.id, some "expands"⟩])
        (fun n h => List.mem_append_left [f] (hns n h))
        (by
          intro n hn
          rcases List.mem_append.mp hn with h | h
          · exact hinv n h
          · rcases List.mem_singleton.mp h with rfl
            exact Or.inr hfresh)
      exact ⟨fun n h => h1.1 n (List.mem_append_left [f] h),
        fun e h => h1.2.1 e (List.mem_append_left _ h), h1.2.2⟩

/-- C6: pushing a snapshot at index k first discards every snapshot
stored after position k, then appends the new snapshot, and sets the
index to the new last position, so no snapshot lies beyond the index
afterwards; App.jsx's increment-style push agrees whenever the index is
in range. -/
theorem C6_push_branch_on_write (h : List Snap) (k : Int) (snap : Snap) :
    (pushHistory h k snap).1 = h.take (k + 1).toNat ++ [snap] ∧
    (pushHistory h k snap).2 =
      (((pushHistory h k snap).1.length : Int)) - 1 ∧
    (pushHistory h k snap).1.drop
      ((pushHistory h k snap).2 + 1).toNat = [] ∧
    (-1 ≤ k → k + 1 ≤ (h.length : Int) →
      pushHistoryJsx h k snap = pushHistory h k snap) := by
  refine ⟨rfl, rfl, ?_, ?_⟩
  · have hlen : (((h.take (k + 1).toNat ++ [snap]).length : Int) - 1 + 1).toNat
        = (h.take (k + 1).toNat ++ [snap]).length := by omega
    show (h.take (k + 1).toNat ++ [snap]).drop
      ((((h.take (k + 1).toNat ++ [snap]).length : Int)) - 1 + 1).toNat = []
    rw [hlen, List.drop_length]
  · intro hk1 hk2
    have hlen : (h.take (k + 1).toNat).length = (k + 1).toNat := by
      rw [List.length_take]
      omega
    unfold pushHistory pushHistoryJsx
    refine Prod.ext rfl ?_
    show k + 1 = ((h.take (k + 1).toNat ++ [snap]).length : Int) - 1
    rw [List.length_append, hlen]
    simp only [List.length_singleton]
    omega

/-- Witness for C6 at a concrete history, index and snapshot. -/
theorem C6_push_branch_on_write_witness :
    pushHistoryJsx [([], [])] 0 ([nA], []) =
      pushHistory [([], [])] 0 ([nA], []) :=
  (C6_push_branch_on_write [([], [])] 0 ([nA], [])).2.2.2
    (by decide) (by decide)

/-- C2 (amended): a failed Oracle call - transport error or unparsable
or shape-mismatched payload - reaches the catch block before any state
write, so the graph, the history with its index and the expansion set
are exactly as before; the code performs no structural validation of a
parsed fragment, so a fragment that §7 calls invalid is committed (see
the counterexample). -/
theorem C2_fail_closed_amended :
    ∀ (s : AppState) (sel : Node) (fuel : Nat),
      generateMapStep s none = s ∧ diveStep s sel none = s ∧
      refineStep s sel none fuel = some s :=
  fun _ _ _ => ⟨rfl, rfl, rfl⟩

/-- Counterexample to C2 as stated: a structurally invalid fragment (its
edge's target "Z" names no node of the graph nor of the fragment) does
not fail the mutation - the dive commits it and pushes history. -/
theorem C2_counterexample :
    ¬ fragmentStructValid stA.nodes danglingFrag ∧
    diveStep stA nA (some danglingFrag) ≠ stA ∧
    (diveStep stA nA (some danglingFrag)).history.length =
      stA.history.length + 1 := by
  decide

/-- Counterexample to C1 as stated: after a successful dive commit on a
fragment with a dangling edge, the committed graph has an edge whose
target is not among the committed nodes. -/
theorem C1_counterexample :
    ¬ edgesClosed (diveStep stA nA (some danglingFrag)).nodes
        (diveStep stA nA (some danglingFrag)).edges ∧
    (diveStep stA nA (some danglingFrag)).history.length =
      stA.history.length + 1 := by
  decide

/-- C4 (amended): dive is monotone in both variants - part_000 appends
all returned nodes (even those whose id is already present, see the
counterexample) and all returned edges after the existing ones, and
App.jsx keeps every existing node and edge while appending only nodes
whose id is not already present (with a synthesized edge each, ignoring
returned edges). -/
theorem C4_dive_monotone_amended :
    (∀ (s : AppState) (sel : Node) (frag : Fragment),
      (diveStep s sel (some frag)).nodes =
        s.nodes ++ frag.nodes.map mkNodeAct ∧
      (diveStep s sel (some frag)).edges = s.edges ++ frag.edges) ∧
    (∀ (ns : List Node) (es : List Edge) (selId : String)
        (fragNodes : List Node),
      (∀ n ∈ ns, n ∈ (diveMergeJsx ns es selId fragNodes).1) ∧
      (∀ e ∈ es, e ∈ (diveMergeJsx ns es selId fragNodes).2) ∧
      (∀ n ∈ (diveMergeJsx ns es selId fragNodes).1,
        n ∈ ns ∨ ¬ n.id ∈ nodeIds ns)) := by
  constructor
  · exact fun s sel frag => ⟨rfl, rfl⟩
  · intro ns es selId fragNodes
    exact jsxFold_inv selId ns fragNodes (ns, es)
      (fun n h => h) (fun n h => Or.inl h)

/-- Witness for C4 at a concrete App.jsx merge: the existing node
survives the merge. -/
theorem C4_dive_monotone_amended_witness :
    nA ∈ (diveMergeJsx [nA] [] "A" [nA, nB]).1 :=
  (C4_dive_monotone_amended.2 [nA] [] "A" [nA, nB]).1 nA
    (by decide)

/-- Counterexample to C4 as stated: part_000's dive merge appends a
returned node whose id "A" is already present, leaving two nodes with
id "A". -/
theorem C4_counterexample :
    "A" ∈ nodeIds stA.nodes ∧
    ((diveStep stA nA (some dupFrag)).nodes.filter
      (fun n => n.id == "A")).length = 2 := by
  decide

/-! History-chain lemmas for the undo claim. -/

theorem commitGraph_spec (s : AppState) (ns : List Node) (es : List Edge)
    (hs : s.historyIndex = (s.history.length : Int) - 1) :
    (commitGraph s ns es).history = s.history ++ [(ns, es)] ∧
    (commitGraph s ns es).historyIndex =
      (((commitGraph s ns es).history.length : Int)) - 1 ∧
    (commitGraph s ns es).nodes = ns ∧
    (commitGraph s ns es).edges = es := by
  have htake : (s.historyIndex + 1).toNat = s.history.length := by omega
  unfold commitGraph pushHistory
  refine ⟨?_, ?_, rfl, rfl⟩
  · show s.history.take (s.historyIndex + 1).toNat ++ [(ns, es)] =
      s.history ++ [(ns, es)]
    rw [htake]
    simp
  · show ((s.history.take (s.historyIndex + 1).toNat ++ [(ns, es)]).length : Int)
        - 1 =
      (((s.history.take (s.historyIndex + 1).toNat ++ [(ns, es)]).length : Int))
        - 1
    rfl

theorem applyMut_commit {s s' : AppState} {a : MutAct}
    (h : applyMut s a = some s')
    (hs : s.historyIndex = (s.history.length : Int) - 1) :
    s'.history = s.history ++ [(s'.nodes, s'.edges)] ∧
    s'.historyIndex = ((s'.history.length : Int)) - 1 := by
  cases a with
  | regen frag =>
    have hinj : generateMapStep s (some frag) = s' := by
      simpa [applyMut] using h
    subst hinj
    have hc := commitGraph_spec s (frag.nodes.map mkNodeGen) frag.edges hs
    simp only [generateMapStep]
    exact ⟨by rw [hc.1, hc.2.2.1, hc.2.2.2], hc.2.1⟩
  | dive sel frag =>
    have hinj : diveStep s sel (some frag) = s' := by
      simpa [applyMut] using h
    subst hinj
    have hc := commitGraph_spec s (s.nodes ++ frag.nodes.map mkNodeAct)
      (s.edges ++ frag.edges) hs
    simp only [diveStep]
    exact ⟨by rw [hc.1, hc.2.2.1, hc.2.2.2], hc.2.1⟩
  | refine sel frag fuel =>
    simp only [applyMut, refineStep] at h
    rcases hdesc : getDescendantsF s.edges sel.id fuel with _ | desc
    · rw [hdesc] at h; exact absurd h (by simp)
    · rw [hdesc] at h
      simp only [Option.some_inj] at h
      subst h
      have hc := commitGraph_spec s
        (refineMerge s.nodes s.edges sel.id desc frag).1
        (refineMerge s.nodes s.edges sel.id desc frag).2 hs
      exact ⟨by rw [hc.1, hc.2.2.1, hc.2.2.2], hc.2.1⟩

theorem applyMuts_trace :
    ∀ (acts : List MutAct) (s fin : AppState),
      applyMuts s acts = some fin →
      s.historyIndex = (s.history.length : Int) - 1 →
      1 ≤ s.history.length →
      (s.nodes, s.edges) = s.history.getD (s.history.length - 1) ([], []) →
      fin.historyIndex = (fin.history.length : Int) - 1 ∧
      fin.history.length = s.history.length + acts.length ∧
      (∀ i, i < s.history.length →
        fin.history.getD i ([], []) = s.history.getD i ([], [])) ∧
      1 ≤ fin.history.length ∧
      (fin.nodes, fin.edges) =
        fin.history.getD (fin.history.length - 1) ([], []) := by
  intro acts
  induction acts with
  | nil =>
    intro s fin h hidx hlen hsync
    have : s = fin := by simpa [applyMuts] using h
    subst this
    exact ⟨hidx, by simp, fun i _ => rfl, hlen, hsync⟩
  | cons a rest ih =>
    intro s fin h hidx hlen hsync
    simp only [applyMuts] at h
    rcases ha : applyMut s a with _ | s1
    · rw [ha] at h; exact absurd h (by simp)
    · rw [ha] at h
      have hc := applyMut_commit ha hidx
      have hlen1 : s1.history.length = s.history.length + 1 := by
        rw [hc.1]; simp
      have hsync1 : (s1.nodes, s1.edges) =
          s1.history.getD (s1.history.length - 1) ([], []) := by
        rw [hc.1]
        simp
      have hrest := ih s1 fin h hc.2 (by omega) hsync1
      refine ⟨hrest.1, ?_, ?_, hrest.2.2.2.1, hrest.2.2.2.2⟩
      · rw [hrest.2.1, hlen1]
        simp [List.length_cons]
        omega
      · intro i hi
        have h1 := hrest.2.2.1 i (by omega)
        rw [h1, hc.1]
        simp [List.getD]
        rw [List.getElem?_append_left hi]

theorem handleUndo_synced {s : AppState} {j : Nat}
    (hidx : s.historyIndex = (j : Int))
    (hj : j < s.history.length)
    (hg : (s.nodes, s.edges) = s.history.getD j ([], [])) :
    (handleUndo s).history = s.history ∧
    (handleUndo s).historyIndex = ((j - 1 : Nat) : Int) ∧
    ((handleUndo s).nodes, (handleUndo s).edges) =
      s.history.getD (j - 1) ([], []) := by
  unfold handleUndo
  by_cases h0 : 0 < s.historyIndex
  · rw [if_pos h0]
    have hj0 : 0 < j := by omega
    have htn : (s.historyIndex - 1).toNat = j - 1 := by omega
    refine ⟨rfl, ?_, ?_⟩
    · show s.historyIndex - 1 = ((j - 1 : Nat) : Int)
      omega
    · show ((s.history.getD (s.historyIndex - 1).toNat ([], [])).1,
        (s.history.getD (s.historyIndex - 1).toNat ([], [])).2) =
        s.history.getD (j - 1) ([], [])
      rw [htn]
  · rw [if_neg h0]
    have hj0 : j = 0 := by omega
    subst hj0
    exact ⟨rfl, by omega, hg⟩

theorem undoIter_synced :
    ∀ (k : Nat) (s : AppState) (j : Nat),
      s.historyIndex = (j : Int) →
      j < s.history.length →
      (s.nodes, s.edges) = s.history.getD j ([], []) →
      (undoIter s k).history = s.history ∧
      (undoIter s k).historyIndex = ((j - k : Nat) : Int) ∧
      ((undoIter s k).nodes, (undoIter s k).edges) =
        s.history.getD (j - k) ([], []) := by
  intro k
  induction k with
  | zero => exact fun s j hidx hj hg => ⟨rfl, by simpa using hidx, by simpa using hg⟩
  | succ k ih =>
    intro s j hidx hj hg
    have h1 := handleUndo_synced hidx hj hg
    have h2 := ih (handleUndo s) (j - 1) h1.2.1
      (by rw [h1.1]; omega) (by rw [h1.1]; exact h1.2.2)
    have hsub : j - 1 - k = j - (k + 1) := by omega
    refine ⟨?_, ?_, ?_⟩
    · show (undoIter (handleUndo s) k).history = s.history
      rw [h2.1, h1.1]
    · show (undoIter (handleUndo s) k).historyIndex = ((j - (k + 1) : Nat) : Int)
      rw [h2.2.1, hsub]
    · show ((undoIter (handleUndo s) k).nodes,
        (undoIter (handleUndo s) k).edges) =
        s.history.getD (j - (k + 1)) ([], [])
      rw [h2.2.2, h1.1, hsub]

theorem handleUndo_noop {s : AppState} (h : s.historyIndex ≤ 0) :
    handleUndo s = s := by
  unfold handleUndo
  rw [if_neg (by omega)]

/-- C5 (amended): after N ≥ 1 successive successful mutations from the
empty initial state, calling undo N times lands on the FIRST mutation's
committed snapshot with history index 0 - not on the pre-history empty
graph, which was never pushed - and any further undo is a no-op (undo
decrements the index only when it is positive and never raises, being a
total function). -/
theorem C5_undo_amended (a0 : MutAct) (rest : List MutAct)
    (s1 fin : AppState)
    (h1 : applyMut initState a0 = some s1)
    (h2 : applyMuts s1 rest = some fin) :
    (undoIter fin (rest.length + 1)).historyIndex = 0 ∧
    ((undoIter fin (rest.length + 1)).nodes,
      (undoIter fin (rest.length + 1)).edges) = (s1.nodes, s1.edges) ∧
    handleUndo (undoIter fin (rest.length + 1)) =
      undoIter fin (rest.length + 1) := by
  have hc := applyMut_commit h1 (by simp [initState])
  have h1hist : s1.history = [(s1.nodes, s1.edges)] := by
    rw [hc.1]; simp [initState]
  have htr := applyMuts_trace rest s1 fin h2 hc.2
    (by rw [h1hist]; simp) (by rw [h1hist]; simp)
  have hfinlen : fin.history.length = rest.length + 1 := by
    rw [htr.2.1, h1hist]
    simp [Nat.add_comm]
  have hfidx : fin.historyIndex = ((rest.length : Nat) : Int) := by
    rw [htr.1, hfinlen]
    omega
  have hu := undoIter_synced (rest.length + 1) fin rest.length hfidx
    (by omega) (by rw [htr.2.2.2.2, hfinlen]; norm_num)
  have hz : rest.length - (rest.length + 1) = 0 := by omega
  have hg0 : fin.history.getD 0 ([], []) = (s1.nodes, s1.edges) := by
    have := htr.2.2.1 0 (by rw [h1hist]; simp)
    rw [this, h1hist]
    simp
  refine ⟨?_, ?_, ?_⟩
  · rw [hu.2.1, hz]; rfl
  · rw [hu.2.2, hz, hg0]
  · exact handleUndo_noop (by rw [hu.2.1, hz]; exact le_refl 0)

/-- Counterexample to C5 as stated: from the empty graph, after N = 1
successful mutation, calling undo N times does not return to the
initial (empty) snapshot - the live graph stays nonempty, because the
empty pre-history state was never pushed. -/
theorem C5_counterexample :
    applyMuts initState [MutAct.regen exFrag] = some exS1 ∧
    undoIter exS1 1 ≠ initState ∧
    (undoIter exS1 1).nodes ≠ [] := by
  decide

/-- Witness for C5 at a concrete two-mutation run. -/
theorem C5_undo_amended_witness :
    (undoIter exFin 2).historyIndex = 0 ∧
    ((undoIter exFin 2).nodes, (undoIter exFin 2).edges) =
      (exS1.nodes, exS1.edges) ∧
    handleUndo (undoIter exFin 2) = undoIter exFin 2 :=
  C5_undo_amended (MutAct.regen exFrag) [MutAct.dive nA dupFrag]
    exS1 exFin rfl rfl

/-! Reachability along edges, and the characterization of the
descendant stack loop. -/

theorem ReachPlus.snoc {es : List Edge} {x y z : String}
    (h : ReachPlus es x y) (h2 : edgeStep es y z) : ReachPlus es x z := by
  induction h with
  | single h1 => exact .head h1 (.single h2)
  | head h1 _ ih => exact .head h1 (ih h2)

theorem mem_childrenOf {es : List Edge} {cur c : String} :
    c ∈ (es.filter (fun e => e.source == cur)).map (fun e => e.target) ↔
      edgeStep es cur c := by
  simp only [List.mem_map, List.mem_filter, beq_iff_eq, edgeStep]
  constructor
  · rintro ⟨e, ⟨he, hs⟩, ht⟩
    exact ⟨e, he, hs, ht⟩
  · rintro ⟨e, he, hs, ht⟩
    exact ⟨e, ⟨he, hs⟩, ht⟩

theorem reach_mem_of_closed {es : List Edge} {sel : String}
    {out : List String}
    (hcl : ∀ x y, edgeStep es x y → (x = sel ∨ x ∈ out) → y ∈ out) :
    ∀ a y, ReachPlus es a y → (a = sel ∨ a ∈ out) → y ∈ out := by
  intro a y h
  induction h with
  | single h1 => exact fun ha => hcl _ _ h1 ha
  | head h1 _ ih => exact fun ha => ih (Or.inr (hcl _ _ h1 ha))

theorem descLoop_done {es : List Edge} {sel : String}
    {desc : List String}
    (hdesc : ∀ y ∈ desc, ReachPlus es sel y)
    (hcl : ∀ x y, edgeStep es x y → (x = sel ∨ x ∈ desc) → y ∈ desc) :
    ∀ y, y ∈ desc ↔ ReachPlus es sel y := by
  intro y
  constructor
  · exact fun hy => hdesc y hy
  · exact fun hy => reach_mem_of_closed hcl sel y hy (Or.inl rfl)

theorem getDescLoop_char {es : List Edge} {sel : String} :
    ∀ (fuel : Nat) (desc stack out : List String),
      getDescLoop es fuel desc stack = some out →
      (∀ x ∈ stack, x = sel ∨ ReachPlus es sel x) →
      (∀ y ∈ desc, ReachPlus es sel y) →
      (∀ x y, edgeStep es x y → (x = sel ∨ x ∈ desc) →
        x ∈ stack ∨ y ∈ desc) →
      ∀ y, y ∈ out ↔ ReachPlus es sel y := by
  intro fuel
  induction fuel with
  | zero =>
    intro desc stack out h hstack hdesc hcl
    cases stack with
    | nil =>
      have hout : desc = out := by simpa [getDescLoop] using h
      subst hout
      refine descLoop_done hdesc ?_
      intro x y hxy hx
      rcases hcl x y hxy hx with h1 | h1
      · exact absurd h1 (by simp)
      · exact h1
    | cons c cs => exact absurd h (by simp [getDescLoop])
  | succ fuel ih =>
    intro desc stack out h hstack hdesc hcl
    cases stack with
    | nil =>
      have hout : desc = out := by simpa [getDescLoop] using h
      subst hout
      refine descLoop_done hdesc ?_
      intro x y hxy hx
      rcases hcl x y hxy hx with h1 | h1
      · exact absurd h1 (by simp)
      · exact h1
    | cons cur rest =>
      simp only [getDescLoop] at h
      have hcur := hstack cur (List.mem_cons_self cur rest)
      have hreach : ∀ c,
          c ∈ (es.filter (fun e => e.source == cur)).map
            (fun e => e.target) → ReachPlus es sel c := by
        intro c hc
        have hstep := mem_childrenOf.mp hc
        rcases hcur with rfl | hrp
        · exact .single hstep
        · exact hrp.snoc hstep
      refine ih _ _ out h ?_ ?_ ?_
      · intro x hx
        rcases List.mem_append.mp hx with hx | hx
        · exact Or.inr (hreach x (List.mem_reverse.mp hx))
        · exact hstack x (List.mem_cons_of_mem cur hx)
      · intro y hy
        rcases mem_foldl_addSet.mp hy with hy | hy
        · exact hdesc y hy
        · exact hreach y hy
      · intro x y hxy hx
        by_cases hxc : x ∈ (es.filter (fun e => e.source == cur)).map
            (fun e => e.target)
        · exact Or.inl (List.mem_append_left rest
            (List.mem_reverse.mpr hxc))
        · have hx' : x = sel ∨ x ∈ desc := by
            rcases hx with h1 | h1
            · exact Or.inl h1
            · rcases mem_foldl_addSet.mp h1 with h2 | h2
              · exact Or.inr h2
              · exact absurd h2 hxc
          rcases hcl x y hxy hx' with h1 | h1
          · rcases List.mem_cons.mp h1 with rfl | h2
            · refine Or.inr (mem_foldl_addSet.mpr (Or.inr ?_))
              exact mem_childrenOf.mpr hxy
            · exact Or.inl (List.mem_append_right _ h2)
          · exact Or.inr (mem_foldl_addSet.mpr (Or.inl h1))

theorem getDescLoop_cyc {es : List Edge} :
    ∀ (fuel : Nat) (desc stack : List String),
      (∃ z ∈ stack, ReachPlus es z z) →
      getDescLoop es fuel desc stack = none := by
  intro fuel
  induction fuel with
  | zero =>
    rintro desc stack ⟨z, hz, -⟩
    cases stack with
    | nil => exact absurd hz (by simp)
    | cons c cs => simp [getDescLoop]
  | succ fuel ih =>
    rintro desc stack ⟨z, hz, hzz⟩
    cases stack with
    | nil => exact absurd hz (by simp)
    | cons cur rest =>
      simp only [getDescLoop]
      apply ih
      rcases List.mem_cons.mp hz with rfl | hzr
      · cases hzz with
        | single h1 =>
          refine ⟨z, List.mem_append_left rest (List.mem_reverse.mpr
            (mem_childrenOf.mpr h1)), ReachPlus.single h1⟩
        | head h1 h2 =>
          rename_i m
          refine ⟨m, List.mem_append_left rest (List.mem_reverse.mpr
            (mem_childrenOf.mpr h1)), h2.snoc h1⟩
      · exact ⟨z, List.mem_append_right _ hzr, hzz⟩

theorem getDescendantsF_char {es : List Edge} {sel : String} {fuel : Nat}
    {desc : List String} (h : getDescendantsF es sel fuel = some desc) :
    ∀ y, y ∈ desc ↔ ReachPlus es sel y := by
  refine getDescLoop_char fuel [] [sel] desc h ?_ (by simp) ?_
  · intro x hx
    exact Or.inl (by simpa using hx)
  · intro x y _ hx
    rcases hx with rfl | h1
    · exact Or.inl (by simp)
    · exact absurd h1 (by simp)

theorem getDescendantsF_not_self {es : List Edge} {sel : String}
    {fuel : Nat} {desc : List String}
    (h : getDescendantsF es sel fuel = some desc) : sel ∉ desc := by
  intro hmem
  have hrp := (getDescendantsF_char h sel).mp hmem
  have hnone := @getDescLoop_cyc es fuel [] [sel]
    ⟨sel, by simp, hrp⟩
  rw [getDescendantsF, hnone] at h
  exact absurd h (by simp)

theorem getDescendantsF_closed {es : List Edge} {sel : String}
    {fuel : Nat} {desc : List String}
    (h : getDescendantsF es sel fuel = some desc) :
    ∀ e ∈ es, e.source = sel ∨ e.source ∈ desc → e.target ∈ desc := by
  intro e he hsrc
  apply (getDescendantsF_char h e.target).mpr
  have hstep : edgeStep es e.source e.target := ⟨e, he, rfl, rfl⟩
  rcases hsrc with h1 | h1
  · rw [h1] at hstep
    exact .single hstep
  · exact ((getDescendantsF_char h _).mp h1).snoc hstep

/-- C3: when the descendant computation of a local refine on X
terminates, the nodes it removes are exactly those whose id is a
descendant of X (reachable in at least one outgoing step over the full
pre-refine edge list; X itself is never in the removal set), and the
edges it removes are exactly those whose source is X or whose target is
in that descendant set. -/
theorem C3_refine_precision (ns : List Node) (es : List Edge)
    (selId : String) (fuel : Nat) (desc : List String)
    (h : getDescendantsF es selId fuel = some desc) :
    (∀ n ∈ ns, (n ∉ cleanNodes ns desc ↔ ReachPlus es selId n.id)) ∧
    selId ∉ desc ∧
    (∀ e ∈ es, (e ∉ cleanEdges es selId desc ↔
      e.source = selId ∨ ReachPlus es selId e.target)) := by
  have hchar := getDescendantsF_char h
  refine ⟨?_, getDescendantsF_not_self h, ?_⟩
  · intro n hn
    rw [← hchar n.id]
    simp [cleanNodes, List.mem_filter, hn]
  · intro e he
    rw [← hchar e.target]
    simp [cleanEdges, List.mem_filter, he]
    tauto

/-- Witness for C3 on the chain A→B→C refined at B: C is reachable from
B and is removed. -/
theorem C3_refine_precision_witness :
    ReachPlus [eAB, eBC] "B" "C" ∧ ¬ "B" ∈ (["C"] : List String) := by
  have h := C3_refine_precision [nA, nB, nC] [eAB, eBC] "B" 9 ["C"] rfl
  exact ⟨(h.1 nC (by decide)).mp (by decide), h.2.1⟩

/-! Divergence of the unguarded visibility traversal on a cycle. -/

theorem travF_cyc :
    ∀ (fuel : Nat) (acc : List String) (x : String),
      x = "A" ∨ x = "B" →
      traverseF cycEdges ["A", "B"] fuel acc x = none := by
  intro fuel
  induction fuel with
  | zero => intro acc x _; simp [traverseF]
  | succ fuel ih =>
    intro acc x hx
    rcases hx with rfl | rfl
    · show traverseF cycEdges ["A", "B"] (fuel + 1) acc "A" = none
      simp only [traverseF]
      rw [if_pos (by decide)]
      have hch : (cycEdges.filter
          (fun e => e.source == "A")).map (fun e => e.target) = ["B"] := by
        decide
      rw [hch]
      simp only [traverseListF]
      rw [ih (addSet acc "A") "B" (Or.inr rfl)]
    · show traverseF cycEdges ["A", "B"] (fuel + 1) acc "B" = none
      simp only [traverseF]
      rw [if_pos (by decide)]
      have hch : (cycEdges.filter
          (fun e => e.source == "B")).map (fun e => e.target) = ["A"] := by
        decide
      rw [hch]
      simp only [traverseListF]
      rw [ih (addSet acc "B") "A" (Or.inl rfl)]

/-! Reachability through expanded nodes, characterizing the visibility
traversal. -/

theorem reachExp_of_not_exp {es : List Edge} {expanded : List String}
    {x z : String} (hx : ¬ x ∈ expanded) :
    ReachExp es expanded x z ↔ z = x := by
  constructor
  · intro h
    cases h with
    | refl => rfl
    | step hmem _ _ => exact absurd hmem hx
  · rintro rfl
    exact .refl _

theorem reachExp_of_exp {es : List Edge} {expanded : List String}
    {x z : String} (hx : x ∈ expanded) :
    ReachExp es expanded x z ↔
      z = x ∨ ∃ y, edgeStep es x y ∧ ReachExp es expanded y z := by
  constructor
  · intro h
    cases h with
    | refl => exact Or.inl rfl
    | step _ hxy hyz => exact Or.inr ⟨_, hxy, hyz⟩
  · rintro (rfl | ⟨y, hxy, hyz⟩)
    · exact .refl _
    · exact .step hx hxy hyz

theorem traverse_char (es : List Edge) (expanded : List String) :
    ∀ fuel : Nat,
      (∀ (acc : List String) (id : String) (out : List String),
        traverseF es expanded fuel acc id = some out →
        ∀ y, y ∈ out ↔ y ∈ acc ∨ ReachExp es expanded id y) ∧
      (∀ (acc : List String) (ids : List String) (out : List String),
        traverseListF es expanded fuel acc ids = some out →
        ∀ y, y ∈ out ↔ y ∈ acc ∨ ∃ s ∈ ids, ReachExp es expanded s y) := by
  intro fuel
  induction fuel with
  | zero =>
    constructor
    · intro acc id out h
      exact absurd h (by simp [traverseF])
    · intro acc ids out h
      cases ids with
      | nil =>
        have hout : acc = out := by simpa [traverseListF] using h
        subst hout
        intro y
        simp
      | cons c cs =>
        exact absurd h (by simp [traverseListF, traverseF])
  | succ fuel ih =>
    have hP : ∀ (acc : List String) (id : String) (out : List String),
        traverseF es expanded (fuel + 1) acc id = some out →
        ∀ y, y ∈ out ↔ y ∈ acc ∨ ReachExp es expanded id y := by
      intro acc id out h
      simp only [traverseF] at h
      by_cases hexp : expanded.contains id = true
      · rw [if_pos hexp] at h
        have hmem : id ∈ expanded := List.elem_iff.mp hexp
        intro y
        rw [ih.2 _ _ out h y, mem_addSet, reachExp_of_exp hmem]
        constructor
        · rintro ((hy | rfl) | ⟨c, hc, hr⟩)
          · exact Or.inl hy
          · exact Or.inr (Or.inl rfl)
          · exact Or.inr (Or.inr ⟨c, mem_childrenOf.mp hc, hr⟩)
        · rintro (hy | (rfl | ⟨c, hc, hr⟩))
          · exact Or.inl (Or.inl hy)
          · exact Or.inl (Or.inr rfl)
          · exact Or.inr ⟨c, mem_childrenOf.mpr hc, hr⟩
      · rw [if_neg hexp] at h
        have hout : addSet acc id = out := by simpa using h
        subst hout
        have hmem : ¬ id ∈ expanded := fun hc =>
          hexp (List.elem_iff.mpr hc)
        intro y
        rw [mem_addSet, reachExp_of_not_exp hmem]
    refine ⟨hP, ?_⟩
    intro acc ids
    induction ids generalizing acc with
    | nil =>
      intro out h
      have hout : acc = out := by simpa [traverseListF] using h
      subst hout
      intro y
      simp
    | cons c cs ih2 =>
      intro out h
      simp only [traverseListF] at h
      rcases ht : traverseF es expanded (fuel + 1) acc c with _ | a2
      · rw [ht] at h
        exact absurd h (by simp)
      · rw [ht] at h
        intro y
        rw [ih2 a2 out h y, hP acc c a2 ht y]
        simp only [List.mem_cons]
        constructor
        · rintro ((hy | hr) | ⟨s, hs, hr⟩)
          · exact Or.inl hy
          · exact Or.inr ⟨c, Or.inl rfl, hr⟩
          · exact Or.inr ⟨s, Or.inr hs, hr⟩
        · rintro (hy | ⟨s, rfl | hs, hr⟩)
          · exact Or.inl (Or.inl hy)
          · exact Or.inl (Or.inr hr)
          · exact Or.inr ⟨s, hs, hr⟩

/-- C8: a node of the graph is visible iff some start node (an
in-degree-0 node, or the first node as fallback) reaches its id
descending only through expanded nodes, and an edge is visible iff both
its endpoint ids are so reached; on the scenario graph {A,B,C} with
A→B, B→C, ExpansionSet {A} yields visible nodes {A,B} (edge A→B) and
ExpansionSet {A,B} yields all three nodes and both edges. -/
theorem C8_visibility (fuel : Nat) (nodes : List Node) (es : List Edge)
    (expanded : List String) (vn : List Node) (ve : List Edge)
    (h : visibleSetsF fuel nodes es expanded = some (vn, ve)) :
    (∀ n, n ∈ vn ↔ n ∈ nodes ∧
      ∃ s ∈ startIds nodes es, ReachExp es expanded s n.id) ∧
    (∀ e, e ∈ ve ↔ e ∈ es ∧
      (∃ s ∈ startIds nodes es, ReachExp es expanded s e.source) ∧
      (∃ s ∈ startIds nodes es, ReachExp es expanded s e.target)) ∧
    visibleSetsF 9 [nA, nB, nC] [eAB, eBC] ["A"] =
      some ([nA, nB], [eAB]) ∧
    visibleSetsF 9 [nA, nB, nC] [eAB, eBC] ["A", "B"] =
      some ([nA, nB, nC], [eAB, eBC]) := by
  refine ⟨?_, ?_, ?_, ?_⟩
  case refine_3 =>
    simp [visibleSetsF, startIds, traverseListF, traverseF, addSet,
      nA, nB, nC, eAB, eBC]
  case refine_4 =>
    simp [visibleSetsF, startIds, traverseListF, traverseF, addSet,
      nA, nB, nC, eAB, eBC]
  all_goals
    cases nodes with
    | nil =>
      have hv : vn = [] ∧ ve = [] := by
        have := h
        simp [visibleSetsF] at this
        exact ⟨this.1, this.2⟩
      intro a
      simp [hv.1, hv.2, startIds]
    | cons n0 tl =>
      simp only [visibleSetsF] at h
      rcases ht : traverseListF es expanded fuel []
          (startIds (n0 :: tl) es) with _ | vIds
      · rw [ht] at h
        exact absurd h (by simp)
      · rw [ht] at h
        simp only [Option.some_inj, Prod.mk.injEq] at h
        have hchar := (traverse_char es expanded fuel).2 _ _ _ ht
        have hids : ∀ y, y ∈ vIds ↔
            ∃ s ∈ startIds (n0 :: tl) es, ReachExp es expanded s y := by
          intro y
          rw [hchar y]
          simp
        intro a
        first
        | (rw [← h.1]
           rw [List.mem_filter]
           constructor
           · rintro ⟨hmem, hc⟩
             exact ⟨hmem, (hids a.id).mp (List.elem_iff.mp hc)⟩
           · rintro ⟨hmem, hr⟩
             exact ⟨hmem, List.elem_iff.mpr ((hids a.id).mpr hr)⟩)
        | (rw [← h.2]
           rw [List.mem_filter]
           constructor
           · rintro ⟨hmem, hc⟩
             simp only [Bool.and_eq_true] at hc
             exact ⟨hmem, (hids a.source).mp (List.elem_iff.mp hc.1),
               (hids a.target).mp (List.elem_iff.mp hc.2)⟩
           · rintro ⟨hmem, h1, h2⟩
             refine ⟨hmem, ?_⟩
             simp only [Bool.and_eq_true]
             exact ⟨List.elem_iff.mpr ((hids a.source).mpr h1),
                List.elem_iff.mpr ((hids a.target).mpr h2)⟩)

/-- Witness for C8: on the scenario graph with ExpansionSet {A}, node B
is visible because the start node A reaches it through expanded A. -/
theorem C8_visibility_witness :
    ∃ s ∈ startIds [nA, nB, nC] [eAB, eBC],
      ReachExp [eAB, eBC] ["A"] s "B" := by
  have h := C8_visibility 9 [nA, nB, nC] [eAB, eBC] ["A"] [nA, nB] [eAB]
    (by simp [visibleSetsF, startIds, traverseListF, traverseF, addSet,
      nA, nB, nC, eAB, eBC])
  exact ((h.1 nB).mp (by decide)).2

/-! Helpers for the edge-endpoint invariant. -/

theorem nodeIds_append (a b : List Node) :
    nodeIds (a ++ b) = nodeIds a ++ nodeIds b := by
  simp [nodeIds]

theorem nodeIds_mkNodeGen (l : List RawNode) :
    nodeIds (l.map mkNodeGen) = l.map (fun n => n.id) := by
  simp [nodeIds, mkNodeGen, List.map_map]

theorem nodeIds_mkNodeAct (l : List RawNode) :
    nodeIds (l.map mkNodeAct) = l.map (fun n => n.id) := by
  simp [nodeIds, mkNodeAct, List.map_map]

theorem mem_nodeIds {ns : List Node} {x : String} :
    x ∈ nodeIds ns ↔ ∃ n ∈ ns, n.id = x := by
  simp [nodeIds]

theorem lookupLastNode_id {ns : List Node} {id : String} {u : Node}
    (h : lookupLastNode ns id = some u) : u.id = id := by
  have hm : u ∈ ns.filter (fun n => n.id == id) :=
    List.mem_of_mem_getLast? (by simp [lookupLastNode] at h ⊢; exact h)
  exact eq_of_beq (List.mem_filter.mp hm).2

theorem nodeIds_replaced (cns newNodes : List Node) :
    nodeIds (cns.map (fun n =>
      match lookupLastNode newNodes n.id with
      | some u => u
      | none => n)) = nodeIds cns := by
  simp only [nodeIds, List.map_map]
  apply List.map_congr_left
  intro n _
  show (match lookupLastNode newNodes n.id with
    | some u => u
    | none => n).id = n.id
  rcases hl : lookupLastNode newNodes n.id with _ | u
  · rfl
  · exact lookupLastNode_id hl

theorem mem_nodeIds_cleanNodes {ns : List Node} {desc : List String}
    {x : String} (hx : x ∈ nodeIds ns) (hd : ¬ x ∈ desc) :
    x ∈ nodeIds (cleanNodes ns desc) := by
  rcases mem_nodeIds.mp hx with ⟨n, hn, rfl⟩
  refine mem_nodeIds.mpr ⟨n, ?_, rfl⟩
  refine List.mem_filter.mpr ⟨hn, ?_⟩
  simp [hd]

/-- C1 (amended): the edge-endpoint invariant is preserved by each of
the three commits PROVIDED the Oracle fragment's edges reference only
ids present in the resulting node set - the code performs no validation
enforcing this (see the counterexample): regenerate needs the fragment
self-contained, dive needs fragment edges over existing-or-fragment
ids, refine (when its descendant computation terminates) needs fragment
edges over the surviving-or-fragment ids of the committed result. -/
theorem C1_edge_invariant_amended :
    (∀ (s : AppState) (frag : Fragment),
      (∀ e ∈ frag.edges,
        e.source ∈ frag.nodes.map (fun n => n.id) ∧
        e.target ∈ frag.nodes.map (fun n => n.id)) →
      edgesClosed (generateMapStep s (some frag)).nodes
        (generateMapStep s (some frag)).edges) ∧
    (∀ (s : AppState) (sel : Node) (frag : Fragment),
      edgesClosed s.nodes s.edges →
      (∀ e ∈ frag.edges,
        e.source ∈ nodeIds s.nodes ++ frag.nodes.map (fun n => n.id) ∧
        e.target ∈ nodeIds s.nodes ++ frag.nodes.map (fun n => n.id)) →
      edgesClosed (diveStep s sel (some frag)).nodes
        (diveStep s sel (some frag)).edges) ∧
    (∀ (s : AppState) (sel : Node) (frag : Fragment) (fuel : Nat)
        (s' : AppState),
      edgesClosed s.nodes s.edges →
      refineStep s sel (some frag) fuel = some s' →
      (∀ e ∈ frag.edges, e.source ∈ nodeIds s'.nodes ∧
        e.target ∈ nodeIds s'.nodes) →
      edgesClosed s'.nodes s'.edges) := by
  refine ⟨?_, ?_, ?_⟩
  · intro s frag hfrag e he
    have hn : (generateMapStep s (some frag)).nodes =
        frag.nodes.map mkNodeGen := rfl
    have hee : (generateMapStep s (some frag)).edges = frag.edges := rfl
    rw [hee] at he
    rw [hn, nodeIds_mkNodeGen]
    exact hfrag e he
  · intro s sel frag hclosed hfrag e he
    have hn : (diveStep s sel (some frag)).nodes =
        s.nodes ++ frag.nodes.map mkNodeAct := rfl
    have hee : (diveStep s sel (some frag)).edges =
        s.edges ++ frag.edges := rfl
    rw [hee] at he
    rw [hn, nodeIds_append, nodeIds_mkNodeAct]
    rcases List.mem_append.mp he with he | he
    · exact ⟨List.mem_append_left _ (hclosed e he).1,
        List.mem_append_left _ (hclosed e he).2⟩
    · exact hfrag e he
  · intro s sel frag fuel s' hclosed hstep hfrag
    simp only [refineStep] at hstep
    rcases hdesc : getDescendantsF s.edges sel.id fuel with _ | desc
    · rw [hdesc] at hstep
      exact absurd hstep (by simp)
    · rw [hdesc] at hstep
      simp only [Option.some_inj] at hstep
      subst hstep
      intro e he
      have hee : ({ commitGraph s
            (refineMerge s.nodes s.edges sel.id desc frag).1
            (refineMerge s.nodes s.edges sel.id desc frag).2 with
          expandedNodes := addSet s.expandedNodes sel.id } :
            AppState).edges =
          (refineMerge s.nodes s.edges sel.id desc frag).2 := rfl
      have hnn : ({ commitGraph s
            (refineMerge s.nodes s.edges sel.id desc frag).1
            (refineMerge s.nodes s.edges sel.id desc frag).2 with
          expandedNodes := addSet s.expandedNodes sel.id } :
            AppState).nodes =
          (refineMerge s.nodes s.edges sel.id desc frag).1 := rfl
    -- membership in the merged edge list
      rw [hee] at he
      rw [hnn]
      have hm2 : (refineMerge s.nodes s.edges sel.id desc frag).2 =
          cleanEdges s.edges sel.id desc ++ frag.edges := rfl
      rw [hm2] at he
      rcases List.mem_append.mp he with he | he
      · have hes : e ∈ s.edges := List.mem_of_mem_filter he
        have hcond : e.source ≠ sel.id ∧ ¬ e.target ∈ desc := by
          have h1 := List.of_mem_filter he
          simpa using h1
        have hsrc : e.source ≠ sel.id := hcond.1
        have htgt : ¬ e.target ∈ desc := hcond.2
        have hsrcd : ¬ e.source ∈ desc := by
          intro hx
          exact htgt (getDescendantsF_closed hdesc e hes (Or.inr hx))
        have hsub : ∀ x, x ∈ nodeIds s.nodes → ¬ x ∈ desc →
            x ∈ nodeIds (refineMerge s.nodes s.edges sel.id desc frag).1 := by
          intro x hx hd
          have hm1 : (refineMerge s.nodes s.edges sel.id desc frag).1 =
              (cleanNodes s.nodes desc).map (fun n =>
                match lookupLastNode (frag.nodes.map mkNodeAct) n.id with
                | some u => u
                | none => n) ++
              (frag.nodes.map mkNodeAct).filter (fun n =>
                !((nodeIds ((cleanNodes s.nodes desc).map (fun n =>
                  match lookupLastNode (frag.nodes.map mkNodeAct) n.id with
                  | some u => u
                  | none => n))).contains n.id)) := rfl
          rw [hm1, nodeIds_append]
          refine List.mem_append_left _ ?_
          rw [nodeIds_replaced]
          exact mem_nodeIds_cleanNodes hx hd
        exact ⟨hsub e.source (hclosed e hes).1 hsrcd,
          hsub e.target (hclosed e hes).2 htgt⟩
      · exact hfrag e he

/-- Witness for C1 on a concrete dive whose fragment references only
existing-or-fragment ids. -/
theorem C1_edge_invariant_amended_witness :
    edgesClosed (diveStep stA nA (some goodFrag)).nodes
      (diveStep stA nA (some goodFrag)).edges :=
  C1_edge_invariant_amended.2.1 stA nA goodFrag (by decide) (by decide)

/-- Counterexample to C7 as stated: neither the refine descendant
computation nor the visibility traversal guards against revisiting - on
the two-node cycle A→B→A both recompute the cycle forever (no fuel
suffices), instead of terminating. -/
theorem C7_counterexample :
    (¬ ∃ out fuel, getDescendantsF cycEdges "A" fuel = some out) ∧
    (¬ ∃ vres fuel,
      visibleSetsF fuel [nA, nB] cycEdges ["A", "B"] = some vres) := by
  constructor
  · rintro ⟨out, fuel, h⟩
    have hrp : ReachPlus cycEdges "A" "A" :=
      .head ⟨⟨"A", "B", none⟩, by simp [cycEdges], rfl, rfl⟩
        (.single ⟨⟨"B", "A", none⟩, by simp [cycEdges], rfl, rfl⟩)
    have hnone := @getDescLoop_cyc cycEdges fuel [] ["A"]
      ⟨"A", by simp, hrp⟩
    rw [getDescendantsF, hnone] at h
    exact absurd h (by simp)
  · rintro ⟨vres, fuel, h⟩
    have hstart : startIds [nA, nB] cycEdges = ["A"] := by decide
    simp only [visibleSetsF, hstart] at h
    simp only [traverseListF] at h
    rw [travF_cyc fuel [] "A" (Or.inl rfl)] at h
    exact absurd h (by simp)

/-! Lemmas about the breadth-first level assignment of the layout
engine: its per-node fold, its invariants, and its termination. -/

theorem bfsFold_enq_shape (lvl : Nat) :
    ∀ (cs : List String) (p : List String × List (String × Nat)),
      ∀ q ∈ (cs.foldl (bfsStep lvl) p).2,
        q ∈ p.2 ∨ (q.2 = lvl + 1 ∧ q.1 ∈ cs) := by
  intro cs
  induction cs with
  | nil => exact fun p q hq => Or.inl hq
  | cons c cs ih =>
    intro p q hq
    rw [List.foldl_cons] at hq
    rcases ih (bfsStep lvl p c) q hq with h1 | h1
    · unfold bfsStep at h1
      by_cases hc : p.1.contains c = true
      · rw [if_pos hc] at h1
        exact Or.inl h1
      · rw [if_neg hc] at h1
        rcases List.mem_append.mp h1 with h2 | h2
        · exact Or.inl h2
        · rcases List.mem_singleton.mp h2 with rfl
          exact Or.inr ⟨rfl, List.mem_cons_self c cs⟩
    · exact Or.inr ⟨h1.1, List.mem_cons_of_mem c h1.2⟩

theorem bfsFold_vis_mono (lvl : Nat) :
    ∀ (cs : List String) (p : List String × List (String × Nat)),
      ∀ x ∈ p.1, x ∈ (cs.foldl (bfsStep lvl) p).1 := by
  intro cs
  induction cs with
  | nil => exact fun p x hx => hx
  | cons c cs ih =>
    intro p x hx
    rw [List.foldl_cons]
    refine ih (bfsStep lvl p c) x ?_
    unfold bfsStep
    by_cases hc : p.1.contains c = true
    · rw [if_pos hc]; exact hx
    · rw [if_neg hc]; exact List.mem_append_left _ hx

theorem bfsFold_enq_vis (lvl : Nat) :
    ∀ (cs : List String) (p : List String × List (String × Nat)),
      (∀ q ∈ p.2, q.1 ∈ p.1) →
      ∀ q ∈ (cs.foldl (bfsStep lvl) p).2,
        q.1 ∈ (cs.foldl (bfsStep lvl) p).1 := by
  intro cs
  induction cs with
  | nil => exact fun p hp q hq => hp q hq
  | cons c cs ih =>
    intro p hp
    rw [List.foldl_cons]
    refine ih (bfsStep lvl p c) ?_
    intro q hq
    unfold bfsStep at hq ⊢
    by_cases hc : p.1.contains c = true
    · rw [if_pos hc] at hq ⊢
      exact hp q hq
    · rw [if_neg hc] at hq ⊢
      rcases List.mem_append.mp hq with h2 | h2
      · exact List.mem_append_left _ (hp q h2)
      · rcases List.mem_singleton.mp h2 with rfl
        exact List.mem_append_right _ (by simp)

theorem bfsFold_nodup (lvl : Nat) :
    ∀ (cs : List String) (p : List String × List (String × Nat)),
      p.1.Nodup → (cs.foldl (bfsStep lvl) p).1.Nodup := by
  intro cs
  induction cs with
  | nil => exact fun p hp => hp
  | cons c cs ih =>
    intro p hp
    rw [List.foldl_cons]
    refine ih (bfsStep lvl p c) ?_
    unfold bfsStep
    by_cases hc : p.1.contains c = true
    · rw [if_pos hc]; exact hp
    · rw [if_neg hc]
      have hcm : ¬ c ∈ p.1 := fun hm => hc (List.elem_iff.mpr hm)
      simp [List.nodup_append, hp, hcm]

theorem bfsFold_sub (lvl : Nat) :
    ∀ (cs : List String) (p : List String × List (String × Nat)),
      ∀ x ∈ (cs.foldl (bfsStep lvl) p).1, x ∈ p.1 ∨ x ∈ cs := by
  intro cs
  induction cs with
  | nil => exact fun p x hx => Or.inl hx
  | cons c cs ih =>
    intro p x hx
    rw [List.foldl_cons] at hx
    rcases ih (bfsStep lvl p c) x hx with h1 | h1
    · unfold bfsStep at h1
      by_cases hc : p.1.contains c = true
      · rw [if_pos hc] at h1
        exact Or.inl h1
      · rw [if_neg hc] at h1
        rcases List.mem_append.mp h1 with h2 | h2
        · exact Or.inl h2
        · rcases List.mem_singleton.mp h2 with rfl
          exact Or.inr (List.mem_cons_self _ _)
    · exact Or.inr (List.mem_cons_of_mem c h1)

theorem bfsFold_len (lvl : Nat) :
    ∀ (cs : List String) (p : List String × List (String × Nat)),
      (cs.foldl (bfsStep lvl) p).2.length + p.1.length =
        p.2.length + (cs.foldl (bfsStep lvl) p).1.length := by
  intro cs
  induction cs with
  | nil => exact fun p => rfl
  | cons c cs ih =>
    intro p
    rw [List.foldl_cons]
    have h1 := ih (bfsStep lvl p c)
    unfold bfsStep at h1 ⊢
    by_cases hc : p.1.contains c = true
    · rw [if_pos hc] at h1 ⊢
      exact h1
    · rw [if_neg hc] at h1 ⊢
      simp only [List.length_append, List.length_singleton] at h1 ⊢
      omega

theorem bfsLoop_parent (adj : String → List String) (root : String) :
    ∀ (fuel : Nat) (queue : List (String × Nat)) (visited : List String)
        (assigned out : List (String × Nat)) (vis : List String),
      bfsLoop adj fuel queue visited assigned = some (out, vis) →
      (∀ p ∈ queue, p = (root, 0) ∨
        ∃ q ∈ assigned, p.1 ∈ adj q.1 ∧ p.2 = q.2 + 1) →
      (∀ p ∈ assigned, p = (root, 0) ∨
        ∃ q ∈ assigned, p.1 ∈ adj q.1 ∧ p.2 = q.2 + 1) →
      ∀ p ∈ out, p = (root, 0) ∨
        ∃ q ∈ out, p.1 ∈ adj q.1 ∧ p.2 = q.2 + 1 := by
  intro fuel
  induction fuel with
  | zero =>
    intro queue visited assigned out vis h hJ hK
    cases queue with
    | nil =>
      have h' : assigned = out := by
        have h2 := h
        simp [bfsLoop] at h2
        exact h2.1
      subst h'
      exact hK
    | cons a rest => exact absurd h (by simp [bfsLoop])
  | succ fuel ih =>
    intro queue visited assigned out vis h hJ hK
    cases queue with
    | nil =>
      have h' : assigned = out := by
        have h2 := h
        simp [bfsLoop] at h2
        exact h2.1
      subst h'
      exact hK
    | cons head rest =>
      obtain ⟨id, lvl⟩ := head
      simp only [bfsLoop] at h
      refine ih _ _ _ out vis h ?_ ?_
      · intro p hp
        rcases List.mem_append.mp hp with hp | hp
        · rcases hJ p (List.mem_cons_of_mem _ hp) with h1 | ⟨q, hq, h2⟩
          · exact Or.inl h1
          · exact Or.inr ⟨q, List.mem_append_left _ hq, h2⟩
        · rcases bfsFold_enq_shape lvl (adj id) (visited, []) p hp with
            h1 | h1
          · exact absurd h1 (by simp)
          · exact Or.inr ⟨(id, lvl),
              List.mem_append_right _ (by simp), h1.2, h1.1⟩
      · intro p hp
        rcases List.mem_append.mp hp with hp | hp
        · rcases hK p hp with h1 | ⟨q, hq, h2⟩
          · exact Or.inl h1
          · exact Or.inr ⟨q, List.mem_append_left _ hq, h2⟩
        · rcases List.mem_singleton.mp hp with rfl
          rcases hJ (id, lvl) (List.mem_cons_self _ _) with h1 | ⟨q, hq, h2⟩
          · exact Or.inl h1
          · exact Or.inr ⟨q, List.mem_append_left _ hq, h2⟩

theorem bfsLoop_assigned_vis (adj : String → List String) :
    ∀ (fuel : Nat) (queue : List (String × Nat)) (visited : List String)
        (assigned out : List (String × Nat)) (vis : List String),
      bfsLoop adj fuel queue visited assigned = some (out, vis) →
      (∀ p ∈ queue, p.1 ∈ visited) →
      (∀ p ∈ assigned, p.1 ∈ visited) →
      (∀ x ∈ visited, x ∈ vis) ∧ (∀ p ∈ out, p.1 ∈ vis) := by
  intro fuel
  induction fuel with
  | zero =>
    intro queue visited assigned out vis h hq ha
    cases queue with
    | nil =>
      have h2 := h
      simp [bfsLoop] at h2
      exact ⟨fun x hx => h2.2 ▸ hx, fun p hp => h2.2 ▸ ha p (h2.1 ▸ hp)⟩
    | cons a rest => exact absurd h (by simp [bfsLoop])
  | succ fuel ih =>
    intro queue visited assigned out vis h hq ha
    cases queue with
    | nil =>
      have h2 := h
      simp [bfsLoop] at h2
      exact ⟨fun x hx => h2.2 ▸ hx, fun p hp => h2.2 ▸ ha p (h2.1 ▸ hp)⟩
    | cons head rest =>
      obtain ⟨id, lvl⟩ := head
      simp only [bfsLoop] at h
      have hmono := bfsFold_vis_mono lvl (adj id) (visited, [])
      have hres := ih _ _ _ out vis h ?_ ?_
      · exact ⟨fun x hx => hres.1 x (hmono x hx), hres.2⟩
      · intro p hp
        rcases List.mem_append.mp hp with hp | hp
        · exact hmono _ (hq p (List.mem_cons_of_mem _ hp))
        · exact bfsFold_enq_vis lvl (adj id) (visited, [])
            (by simp) p hp
      · intro p hp
        rcases List.mem_append.mp hp with hp | hp
        · exact hmono _ (ha p hp)
        · rcases List.mem_singleton.mp hp with rfl
          exact hmono _ (hq (id, lvl) (List.mem_cons_self _ _))

theorem nodup_subset_length {l l' : List String} (h : l.Nodup)
    (hs : ∀ x ∈ l, x ∈ l') : l.length ≤ l'.length := by
  classical
  exact List.Subperm.length_le (List.subperm_of_subset h hs)

theorem bfsLoop_total (adj : String → List String) (U : List String)
    (hU : ∀ id c, c ∈ adj id → c ∈ U) :
    ∀ (fuel : Nat) (queue : List (String × Nat)) (visited : List String)
        (assigned : List (String × Nat)),
      visited.Nodup → (∀ x ∈ visited, x ∈ U) →
      queue.length + U.length ≤ fuel + visited.length →
      ∃ res, bfsLoop adj fuel queue visited assigned = some res := by
  intro fuel
  induction fuel with
  | zero =>
    intro queue visited assigned hnd hvU hlen
    cases queue with
    | nil => exact ⟨(assigned, visited), by simp [bfsLoop]⟩
    | cons head rest =>
      have := nodup_subset_length hnd hvU
      simp only [List.length_cons] at hlen
      omega
  | succ fuel ih =>
    intro queue visited assigned hnd hvU hlen
    cases queue with
    | nil => exact ⟨(assigned, visited), by simp [bfsLoop]⟩
    | cons head rest =>
      obtain ⟨id, lvl⟩ := head
      have hflen := bfsFold_len lvl (adj id) (visited, [])
      have hnd' := bfsFold_nodup lvl (adj id) (visited, []) hnd
      have hsub' : ∀ x ∈ ((adj id).foldl (bfsStep lvl) (visited, [])).1,
          x ∈ U := by
        intro x hx
        rcases bfsFold_sub lvl (adj id) (visited, []) x hx with h1 | h1
        · exact hvU x h1
        · exact hU id x h1
      have hvlen := nodup_subset_length hnd' hsub'
      have hrec := ih
        (rest ++ ((adj id).foldl (bfsStep lvl) (visited, [])).2)
        ((adj id).foldl (bfsStep lvl) (visited, [])).1
        (assigned ++ [(id, lvl)]) hnd' hsub' ?_
      · rcases hrec with ⟨res, hres⟩
        exact ⟨res, by simp only [bfsLoop]; exact hres⟩
      · have h1 : ((adj id).foldl (bfsStep lvl) (visited, [])).2.length +
            visited.length =
            ((adj id).foldl (bfsStep lvl) (visited, [])).1.length := by
          simpa using hflen
        have hlen' : rest.length + 1 + U.length ≤
            fuel + 1 + visited.length := by
          simpa using hlen
        simp only [List.length_append]
        omega

/-- C7 (amended): of the engine's graph traversals, the layout level
assignment is the one with a visited-set guard: its breadth-first loop
terminates on every finite visible subgraph - fuel linear in the edge
count suffices, cycles included; the visibility traversal and the
refine descendant computation have no such guard and diverge on a
reachable cycle (see the counterexample). -/
theorem C7_bfs_guard_amended (vnodes : List Node) (vedges : List Edge)
    (n0 : Node) :
    ∃ res, bfsLoop (layoutAdj vnodes vedges)
      (1 + (layoutRootId n0 vnodes vedges ::
        vedges.map (fun e => e.target)).length)
      [(layoutRootId n0 vnodes vedges, 0)]
      [layoutRootId n0 vnodes vedges] [] = some res := by
  refine bfsLoop_total (layoutAdj vnodes vedges)
    (layoutRootId n0 vnodes vedges :: vedges.map (fun e => e.target))
    ?_ _ _ _ _ (by simp) ?_ ?_
  · intro id c hc
    unfold layoutAdj at hc
    by_cases hid : (nodeIds vnodes).contains id = true
    · rw [if_pos hid] at hc
      rcases List.mem_map.mp hc with ⟨e, he, rfl⟩
      exact List.mem_cons_of_mem _
        (List.mem_map.mpr ⟨e, List.mem_of_mem_filter he, rfl⟩)
    · rw [if_neg hid] at hc
      exact absurd hc (by simp)
  · intro x hx
    rcases List.mem_singleton.mp hx with rfl
    exact List.mem_cons_self _ _
  · simp

/-! Assoc-list lookup helpers for the level map. -/

theorem lookup_mem_pairs {l : List (String × Nat)} {k : String} {v : Nat}
    (h : l.lookup k = some v) : (k, v) ∈ l := by
  induction l with
  | nil => simp [List.lookup] at h
  | cons p rest ih =>
    rw [List.lookup] at h
    by_cases hk : (k == p.1) = true
    · rw [hk] at h
      simp only [Option.some_inj] at h
      refine List.mem_cons.mpr (Or.inl ?_)
      cases p with
      | mk a b =>
        simp only at hk h
        simp [eq_of_beq hk, h]
    · rw [Bool.not_eq_true] at hk
      rw [hk] at h
      exact List.mem_cons_of_mem _ (ih h)

theorem lookup_none_of_ids {assigned : List (String × Nat)}
    {visited : List String} {x : String}
    (hav : ∀ p ∈ assigned, p.1 ∈ visited) (hx : ¬ x ∈ visited) :
    assigned.lookup x = none := by
  cases hl : assigned.lookup x with
  | none => rfl
  | some v => exact absurd (hav _ (lookup_mem_pairs hl)) hx

theorem lookup_append_none {l l' : List (String × Nat)} {k : String}
    (h : l.lookup k = none) : (l ++ l').lookup k = l'.lookup k := by
  induction l with
  | nil => rfl
  | cons p rest ih =>
    rw [List.lookup] at h
    rw [List.cons_append, List.lookup]
    by_cases hk : (k == p.1) = true
    · rw [hk] at h
      exact absurd h (by simp)
    · rw [Bool.not_eq_true] at hk
      rw [hk] at h ⊢
      exact ih h

theorem lookup_map_one :
    ∀ (l : List Node) (x : String), (∃ n ∈ l, n.id = x) →
      (l.map (fun n => (n.id, (1 : Nat)))).lookup x = some 1 := by
  intro l
  induction l with
  | nil => rintro x ⟨n, hn, -⟩; exact absurd hn (by simp)
  | cons m rest ih =>
    rintro x ⟨n, hn, rfl⟩
    rw [List.map_cons, List.lookup]
    by_cases hk : (n.id == m.id) = true
    · rw [hk]
    · rw [Bool.not_eq_true] at hk
      rw [hk]
      rcases List.mem_cons.mp hn with rfl | hn2
      · exact absurd hk (by simp)
      · exact ih n.id ⟨n, hn2, rfl⟩

/-- C9: the layout level assignment is breadth-first from the chosen
root - every assigned pair is the root at level 0 or has an assigned
parent one level up whose adjacency contains it; visible nodes the
traversal misses default to level 1; every placed node's x is
level * LEVEL_GAP + MARGIN (380 and 50), so same-level nodes share x;
on the chain A(root)→B→C with ExpansionSet {A,B} the levels are 0,1,2
and the xs are 50, 430, 810. -/
theorem C9_layout_levels :
    (∀ (adj : String → List String) (root : String) (fuel : Nat)
        (out : List (String × Nat)) (vis : List String),
      bfsLoop adj fuel [(root, 0)] [root] [] = some (out, vis) →
      ∀ p ∈ out, p = (root, 0) ∨
        ∃ q ∈ out, p.1 ∈ adj q.1 ∧ p.2 = q.2 + 1) ∧
    (∀ (adj : String → List String) (root : String) (fuel : Nat)
        (out : List (String × Nat)) (vis : List String)
        (vnodes : List Node) (n : Node),
      bfsLoop adj fuel [(root, 0)] [root] [] = some (out, vis) →
      n ∈ vnodes → ¬ n.id ∈ vis →
      (levelsWithDefaults out vis vnodes).lookup n.id = some 1) ∧
    (∀ (rand : Nat → ℚ) (nlf : List (String × Nat))
        (ny : List (String × ℚ)) (vns : List Node) (p : LNode),
      p ∈ (placeNodes rand nlf ny vns).1 →
      p.x = (((nlf.lookup p.node.id).getD 0 : Nat) : ℚ) * 380 + 50) ∧
    (∀ (rand : Nat → ℚ) (nlf : List (String × Nat))
        (ny : List (String × ℚ)) (vns : List Node) (p q : LNode),
      p ∈ (placeNodes rand nlf ny vns).1 →
      q ∈ (placeNodes rand nlf ny vns).1 →
      nlf.lookup p.node.id = nlf.lookup q.node.id → p.x = q.x) ∧
    bfsLoop (layoutAdj [nA, nB, nC] [eAB, eBC]) 9 [("A", 0)] ["A"] [] =
      some ([("A", 0), ("B", 1), ("C", 2)], ["A", "B", "C"]) ∧
    (visibleGraphF (fun _ => 0) 9 [nA, nB, nC] [eAB, eBC]
      ["A", "B"]).map (fun L => L.nodes.map (fun p => (p.node.id, p.x)))
      = some [("A", 50), ("B", 430), ("C", 810)] := by
  have hplace : ∀ (rand : Nat → ℚ) (nlf : List (String × Nat))
      (ny : List (String × ℚ)) (vns : List Node)
      (st : List LNode × Nat),
      (∀ p ∈ st.1,
        p.x = (((nlf.lookup p.node.id).getD 0 : Nat) : ℚ) * 380 + 50) →
      ∀ p ∈ (vns.foldl (placeStep rand nlf ny) st).1,
        p.x = (((nlf.lookup p.node.id).getD 0 : Nat) : ℚ) * 380 + 50 := by
    intro rand nlf ny vns
    induction vns with
    | nil => exact fun st hst => hst
    | cons n rest ih =>
      intro st hst
      rw [List.foldl_cons]
      refine ih (placeStep rand nlf ny st n) ?_
      intro p hp
      unfold placeStep at hp
      rcases hl : ny.lookup n.id with _ | y
      · rw [hl] at hp
        simp only at hp
        rcases List.mem_append.mp hp with h1 | h1
        · exact hst p h1
        · rcases List.mem_singleton.mp h1 with rfl
          rfl
      · rw [hl] at hp
        simp only at hp
        by_cases hy : (y == 0) = true
        · rw [if_pos hy] at hp
          rcases List.mem_append.mp hp with h1 | h1
          · exact hst p h1
          · rcases List.mem_singleton.mp h1 with rfl
            rfl
        · rw [if_neg hy] at hp
          rcases List.mem_append.mp hp with h1 | h1
          · exact hst p h1
          · rcases List.mem_singleton.mp h1 with rfl
            rfl
  refine ⟨?_, ?_, ?_, ?_, ?_, ?_⟩
  · intro adj root fuel out vis h
    refine bfsLoop_parent adj root fuel _ _ _ out vis h ?_ ?_
    · intro p hp
      rcases List.mem_singleton.mp hp with rfl
      exact Or.inl rfl
    · intro p hp
      exact absurd hp (by simp)
  · intro adj root fuel out vis vnodes n h hn hnv
    have hav := bfsLoop_assigned_vis adj fuel _ _ _ out vis h ?_ ?_
    · unfold levelsWithDefaults
      rw [lookup_append_none (lookup_none_of_ids hav.2 hnv)]
      refine lookup_map_one _ _ ⟨n, ?_, rfl⟩
      refine List.mem_filter.mpr ⟨hn, ?_⟩
      simp only [Bool.not_eq_true']
      exact Bool.not_eq_true _ ▸ fun hc => hnv (List.elem_iff.mp hc)
    · intro p hp
      rcases List.mem_singleton.mp hp with rfl
      simp
    · intro p hp
      exact absurd hp (by simp)
  · intro rand nlf ny vns p hp
    exact hplace rand nlf ny vns ([], 0) (by simp) p hp
  · intro rand nlf ny vns p q hp hq hlook
    have h1 := hplace rand nlf ny vns ([], 0) (by simp) p hp
    have h2 := hplace rand nlf ny vns ([], 0) (by simp) q hq
    rw [h1, h2, hlook]
  · decide
  · simp [visibleGraphF, visibleSetsF, startIds, traverseListF,
      traverseF, addSet, calculateLayoutF, layoutAdj, layoutRootId,
      bfsLoop, bfsStep, layoutNodeF, layoutChildrenF,
      levelsWithDefaults, placeNodes, placeStep, updY, nodeIds,
      nA, nB, nC, eAB, eBC, List.lookup]
    norm_num

/-- Witness for C9: in the concrete chain's assignment, the pair (B,1)
has the assigned parent (A,0) one level up. -/
theorem C9_layout_levels_witness :
    ("B", (1 : Nat)) = ("A", (0 : Nat)) ∨
    ∃ q ∈ [("A", (0 : Nat)), ("B", 1), ("C", 2)],
      "B" ∈ layoutAdj [nA, nB, nC] [eAB, eBC] q.1 ∧ 1 = q.2 + 1 := by
  have h := C9_layout_levels.1 (layoutAdj [nA, nB, nC] [eAB, eBC]) "A" 9
    [("A", 0), ("B", 1), ("C", 2)] ["A", "B", "C"] (by decide)
  exact h ("B", 1) (by decide)

/-- C10: calculateLayout is not deterministic - a visible node the
recursive vertical placement from the single chosen root does not
position (here B, a second root) gets its y from Math.random() * 500
(modelled as 500 times the next value of the supplied random sequence),
so two calls on the identical input can return different outputs. -/
theorem C10_layout_nondet :
    calculateLayoutF (fun _ => 0) 5 [nA, nB] [] ≠
      calculateLayoutF (fun _ => 1) 5 [nA, nB] [] ∧
    (∀ q : ℚ, (calculateLayoutF (fun _ => q) 5 [nA, nB] []).map
      (fun L => L.nodes.map (fun p => p.y)) = some [30, 500 * q]) := by
  constructor
  · have h0 : calculateLayoutF (fun _ => 0) 5 [nA, nB] [] =
        some ⟨[⟨nA, 50, 30⟩, ⟨nB, 430, 0⟩], [], 760, 190⟩ := by
      simp [calculateLayoutF, layoutAdj, layoutRootId, bfsLoop, bfsStep,
        layoutNodeF, layoutChildrenF, levelsWithDefaults, placeNodes,
        placeStep, updY, nodeIds, nA, nB, List.lookup]
      norm_num
    have h1 : calculateLayoutF (fun _ => 1) 5 [nA, nB] [] =
        some ⟨[⟨nA, 50, 30⟩, ⟨nB, 430, 500⟩], [], 760, 190⟩ := by
      simp [calculateLayoutF, layoutAdj, layoutRootId, bfsLoop, bfsStep,
        layoutNodeF, layoutChildrenF, levelsWithDefaults, placeNodes,
        placeStep, updY, nodeIds, nA, nB, List.lookup]
      norm_num
    rw [h0, h1]
    intro hcontra
    simp [LNode.mk.injEq] at hcontra
  · intro q
    simp [calculateLayoutF, layoutAdj, layoutRootId, bfsLoop, bfsStep,
      layoutNodeF, layoutChildrenF, levelsWithDefaults, placeNodes,
      placeStep, updY, nodeIds, nA, nB, List.lookup]

end SynthMap
